import Mathlib

/-!
A shallow embedding of `src/main.rs` of the rumd repository (a warp-based
HTTP byte-range file server), together with theorems settling the spec's
claims about it.

The embedding covers:
* `Range` and `Range::from_str` (`mod rumd`), including the possibility of a
  panic from the unchecked `range[1]` vector indexing;
* the request handlers `list_umds`, `info_umd` and `read_umd`;
* the `FRAGMENT` percent-encoding set and the public-name derivation done in
  `main`'s directory walk.

Rust machine integers are modelled as `Int` with the explicit `i64` bounds
checked where `str::parse::<i64>` would report overflow.
-/

namespace Rumd

/-- `struct Range { start: i64, end: i64 }` from `mod rumd` in `src/main.rs`.
Rust's `end` field is named `end_` because `end` is a Lean keyword. -/
structure Range where
  start : Int
  end_ : Int
deriving DecidableEq

/-- Smallest `i64` value, `-2^63`. -/
def i64Min : Int := -(2 ^ 63)

/-- Largest `i64` value, `2^63 - 1`. -/
def i64Max : Int := 2 ^ 63 - 1

/-- Numeric value of a list of ASCII digit characters, most significant first. -/
def digitsToNat (ds : List Char) : Nat :=
  ds.foldl (fun a c => 10 * a + (c.toNat - 48)) 0

/-- Body of Rust `i64::from_str` after the optional sign: requires a nonempty
run of ASCII digits and reports overflow (value outside the `i64` range) as an
error. -/
def parseI64Core (sign : Int) (ds : List Char) : Option Int :=
  if ds.isEmpty then none
  else if ds.all Char.isDigit then
    if i64Min ≤ sign * (digitsToNat ds : Int) ∧ sign * (digitsToNat ds : Int) ≤ i64Max then
      some (sign * (digitsToNat ds : Int))
    else none
  else none

/-- Rust `str::parse::<i64>`: an optional `+`/`-` sign followed by one or more
ASCII digits; anything else, or overflow, is an `Err`. -/
def parseI64 (p : List Char) : Option Int :=
  match p with
  | [] => none
  | c :: cs =>
    if c = '+' then parseI64Core 1 cs
    else if c = '-' then parseI64Core (-1) cs
    else parseI64Core 1 (c :: cs)

/-- Rust `str::split(sep)` on character lists. The result is always nonempty;
splitting the empty string yields one empty piece, exactly as in Rust. -/
def splitCh (sep : Char) : List Char → List (List Char)
  | [] => [[]]
  | c :: cs =>
    match splitCh sep cs with
    | [] => [[c]]
    | p :: ps => if c = sep then [] :: p :: ps else (c :: p) :: ps

/-- The pattern `"bytes="` stripped by `trim_start_matches` in `Range::from_str`. -/
def bytesEq : List Char := ['b', 'y', 't', 'e', 's', '=']

/-- One fuel-indexed step loop for `str::trim_start_matches("bytes=")`:
while the string starts with `"bytes="`, drop those six characters. -/
def trimBytesFuel : Nat → List Char → List Char
  | 0, s => s
  | fuel + 1, s => if bytesEq.isPrefixOf s then trimBytesFuel fuel (s.drop 6) else s

/-- Rust `s.trim_start_matches("bytes=")`. The fuel `s.length` is always
sufficient: every strip removes six characters, so the loop ends first. -/
def trimBytes (s : List Char) : List Char := trimBytesFuel s.length s

/-- Outcome of `Range::from_str`: `Ok`, `Err(ParseIntError)` (propagated by the
two `?` operators), or `panicked` for a panic from an out-of-bounds vector
index. -/
inductive ParseOutcome
  | ok : Range → ParseOutcome
  | err : ParseOutcome
  | panicked : ParseOutcome
deriving DecidableEq

/-- The body of `Range::from_str` after the split: `range[0].parse::<i64>()?`
then `range[1].parse::<i64>()?`. Indexing a missing element is a panic. -/
def fromStrParts (parts : List (List Char)) : ParseOutcome :=
  match parts[0]? with
  | none => .panicked
  | some p0 =>
    match parseI64 p0 with
    | none => .err
    | some s =>
      match parts[1]? with
      | none => .panicked
      | some p1 =>
        match parseI64 p1 with
        | none => .err
        | some e => .ok ⟨s, e⟩

/-- `Range::from_str` from `src/main.rs`:
`s.trim_start_matches("bytes=").split('-')`, then parse pieces 0 and 1. -/
def fromStr (s : List Char) : ParseOutcome :=
  fromStrParts (splitCh '-' (trimBytes s))

/-- An HTTP response as the handlers build it: status, headers, body bytes. -/
structure Resp where
  status : Nat
  headers : List (String × String)
  body : List UInt8

/-- The file size hard-coded in both `info_umd` and `read_umd`. -/
def TOTAL : Nat := 1646002176

/-- The `Content-Range` header value built by `read_umd`:
`format!("bytes {}-{}/{}", range.start, range.end, 1646002176)`. -/
def contentRangeValue (range : Range) : String :=
  "bytes " ++ toString range.start ++ "-" ++ toString range.end_ ++ "/" ++ toString TOTAL

/-- Handler `read_umd`: always status 206 `PARTIAL_CONTENT`, fixed headers, and
`hyper::Body::empty()` — no file bytes are read or returned. -/
def readUmd (umdName : String) (range : Range) : Resp :=
  ⟨206,
    [("Accept-Ranges", "bytes"),
     ("Content-Type", "application/octet-stream"),
     ("Content-Range", contentRangeValue range)],
    []⟩

/-- Handler `info_umd`: always status 200 (the `Response::builder()` default)
with a hard-coded `Content-Length`, for every requested name. -/
def infoUmd (umdName : String) : Resp :=
  ⟨200,
    [("Accept-Ranges", "bytes"),
     ("Content-Type", "application/octet-stream"),
     ("Content-Length", "1646002176")],
    []⟩

/-- The hard-coded name list in handler `list_umds`. -/
def isos : List String :=
  ["/",
   "/Crisis%20Core%20-%20Final%20Fantasy%20VII%20(USA).iso",
   "/Metal_Gear_Solid_Peace_Walker_USA_PSP-pSyPSP.iso",
   "/Monster%20Hunter%20Freedom%20Unite%20(USA)%20(En,Fr,De,Es,It).iso"]

/-- Handler `list_umds`: `isos.join("\n")`. -/
def listUmds : String := String.intercalate "\n" isos

/-- The `CONTROLS` ascii set of the `percent-encoding` crate: C0 controls and
DEL. -/
def inControls (c : Char) : Bool := c.toNat < 32 || c.toNat == 127

/-- `FRAGMENT` from `src/main.rs`: `&CONTROLS.add(b' ')`. -/
def inFragment (c : Char) : Bool := inControls c || c == ' '

/-- Uppercase hexadecimal digit, as emitted by `utf8_percent_encode`. -/
def hexUpper (n : Nat) : Char :=
  if n < 10 then Char.ofNat (48 + n) else Char.ofNat (55 + n)

/-- The UTF-8 byte sequence of a character (1 to 4 bytes). -/
def utf8Bytes (c : Char) : List Nat :=
  let n := c.toNat
  if n < 128 then [n]
  else if n < 2048 then [192 + n / 64, 128 + n % 64]
  else if n < 65536 then [224 + n / 4096, 128 + (n / 64) % 64, 128 + n % 64]
  else [240 + n / 262144, 128 + (n / 4096) % 64, 128 + (n / 64) % 64, 128 + n % 64]

/-- Percent-encoding of one character. The `percent-encoding` crate walks the
UTF-8 bytes and encodes a byte when it is non-ASCII **or** in the `AsciiSet`
(`should_percent_encode` is `!byte.is_ascii() || set.contains(byte)`), so:
an ASCII character (whose single byte is its code point) becomes `%XX` exactly
when it is in `FRAGMENT`, and every byte of a non-ASCII character (all of
which are ≥ 0x80) is always percent-encoded. -/
def percentEncodeChar (c : Char) : List Char :=
  if c.toNat < 128 then
    if inFragment c then ['%', hexUpper (c.toNat / 16), hexUpper (c.toNat % 16)]
    else [c]
  else
    (utf8Bytes c).flatMap fun b => ['%', hexUpper (b / 16), hexUpper (b % 16)]

/-- `utf8_percent_encode(s, FRAGMENT)` from the directory walk in `main`:
the concatenation of the per-character byte encodings (UTF-8 byte runs align
with character boundaries, and the crate decides byte by byte). -/
def utf8PercentEncode (s : List Char) : List Char :=
  (s.map percentEncodeChar).flatten

/-- The public name printed by `main` for a discovered file whose path relative
to `ROOT_ISO_PATH` is `rel`: `println!("/{}", utf8_percent_encode(...))`. -/
def publicName (rel : List Char) : List Char :=
  '/' :: utf8PercentEncode rel

/-- One syntactically well-formed single-range spec of an HTTP `Range` header
value: `a-b`, `a-` or `-b`, with `a`, `b` nonempty runs of ASCII digits.
A multi-range header value is a comma-separated join of at least two such
specs. -/
def IsRangeSpec (p : List Char) : Prop :=
  (∃ a b, a ≠ [] ∧ b ≠ [] ∧ a.all Char.isDigit = true ∧ b.all Char.isDigit = true ∧
    p = a ++ '-' :: b) ∨
  (∃ a, a ≠ [] ∧ a.all Char.isDigit = true ∧ p = a ++ ['-']) ∨
  (∃ b, b ≠ [] ∧ b.all Char.isDigit = true ∧ p = '-' :: b)

/-- Comma-joined range specs: the wire form of a (multi-)range header value. -/
def joinComma : List (List Char) → List Char
  | [] => []
  | [p] => p
  | p :: ps => p ++ ',' :: joinComma ps

/-! ### Helper lemmas about the parsing primitives -/

theorem splitCh_ne_nil (sep : Char) (xs : List Char) : splitCh sep xs ≠ [] := by
  cases xs with
  | nil => simp [splitCh]
  | cons c cs =>
    rcases h : splitCh sep cs with _ | ⟨p, ps⟩
    · simp [splitCh, h]
    · by_cases hc : c = sep <;> simp [splitCh, h, hc]

theorem splitCh_head (sep : Char) (xs : List Char) :
    ∃ ps, splitCh sep xs = (xs.takeWhile fun x => x != sep) :: ps := by
  induction xs with
  | nil => exact ⟨[], rfl⟩
  | cons c cs ih =>
    rcases ih with ⟨ps, hps⟩
    by_cases hc : c = sep
    · exact ⟨(cs.takeWhile fun x => x != sep) :: ps, by simp [splitCh, hps, hc]⟩
    · exact ⟨ps, by simp [splitCh, hps, hc]⟩

theorem splitCh_append (sep : Char) (a t : List Char) (ha : sep ∉ a) :
    splitCh sep (a ++ sep :: t) = a :: splitCh sep t := by
  induction a with
  | nil =>
    rcases h : splitCh sep t with _ | ⟨p, ps⟩
    · exact absurd h (splitCh_ne_nil sep t)
    · simp [splitCh, h]
  | cons c a' ih =>
    have hc : c ≠ sep := fun hh => ha (hh ▸ List.mem_cons_self c a')
    have ih' := ih fun hm => ha (List.mem_cons_of_mem _ hm)
    simp [splitCh, ih', hc]

theorem splitCh_no_sep (sep : Char) (a : List Char) (ha : sep ∉ a) :
    splitCh sep a = [a] := by
  induction a with
  | nil => rfl
  | cons c a' ih =>
    have hc : c ≠ sep := fun hh => ha (hh ▸ List.mem_cons_self c a')
    have ih' := ih fun hm => ha (List.mem_cons_of_mem _ hm)
    simp [splitCh, ih', hc]

theorem not_mem_of_mem_splitCh (sep : Char) :
    ∀ (xs p : List Char), p ∈ splitCh sep xs → sep ∉ p := by
  intro xs
  induction xs with
  | nil =>
    intro p hp
    simp [splitCh] at hp
    simp [hp]
  | cons c cs ih =>
    intro p hp
    rcases h : splitCh sep cs with _ | ⟨q, qs⟩
    · exact absurd h (splitCh_ne_nil sep cs)
    · by_cases hc : c = sep
      · simp only [splitCh, h, hc, if_pos rfl] at hp
        rcases List.mem_cons.mp hp with rfl | hp'
        · simp
        · exact ih p (h ▸ hp')
      · simp only [splitCh, h, if_neg hc] at hp
        rcases List.mem_cons.mp hp with rfl | hp'
        · intro hm
          rcases List.mem_cons.mp hm with rfl | hm'
          · exact hc rfl
          · exact ih q (h ▸ List.mem_cons_self q qs) hm'
        · exact ih p (h ▸ List.mem_cons_of_mem _ hp')

theorem takeWhile_append_all (p : Char → Bool) (b l : List Char)
    (hb : ∀ c ∈ b, p c = true) :
    (b ++ l).takeWhile p = b ++ l.takeWhile p := by
  induction b with
  | nil => rfl
  | cons c b' ih =>
    have hc : p c = true := hb c (List.mem_cons_self c b')
    have ih' := ih fun x hx => hb x (List.mem_cons_of_mem _ hx)
    simp [List.takeWhile_cons, hc, ih']

theorem isPrefixOf_append_self (pre t : List Char) : pre.isPrefixOf (pre ++ t) = true := by
  induction pre with
  | nil => simp [List.isPrefixOf]
  | cons c p ih => simp [List.isPrefixOf, ih]

theorem bytesEq_not_prefixOf_cons (c : Char) (t : List Char) (hc : c ≠ 'b') :
    bytesEq.isPrefixOf (c :: t) = false := by
  simp [bytesEq, List.isPrefixOf, Ne.symm hc]

theorem trimBytesFuel_of_not_prefixOf (fuel : Nat) (s : List Char)
    (h : bytesEq.isPrefixOf s = false) : trimBytesFuel fuel s = s := by
  cases fuel <;> simp [trimBytesFuel, h]

theorem trimBytes_append (t : List Char) (h : bytesEq.isPrefixOf t = false) :
    trimBytes (bytesEq ++ t) = t := by
  have hlen : (bytesEq ++ t).length = (5 + t.length) + 1 := by
    simp [bytesEq]
    omega
  rw [trimBytes, hlen, trimBytesFuel, if_pos (isPrefixOf_append_self bytesEq t)]
  have hdrop : (bytesEq ++ t).drop 6 = t := rfl
  rw [hdrop]
  exact trimBytesFuel_of_not_prefixOf _ t h

theorem isDigit_ne_chars (c : Char) (h : c.isDigit = true) :
    c ≠ '+' ∧ c ≠ '-' ∧ c ≠ 'b' ∧ c ≠ ',' := by
  refine ⟨?_, ?_, ?_, ?_⟩ <;> rintro rfl <;> exact absurd h (by decide)

theorem dash_not_mem_of_all_digit (a : List Char) (h : a.all Char.isDigit = true) :
    '-' ∉ a := by
  intro hm
  exact absurd (List.all_eq_true.mp h _ hm) (by decide)

theorem parseI64Core_comma (sign : Int) (ds : List Char) (h : ',' ∈ ds) :
    parseI64Core sign ds = none := by
  have hall : ds.all Char.isDigit = false := by
    rcases hb : ds.all Char.isDigit with _ | _
    · rfl
    · exact absurd (List.all_eq_true.mp hb _ h) (by decide)
  have hne : ds.isEmpty = false := by
    cases ds
    · cases h
    · rfl
  simp [parseI64Core, hne, hall]

theorem parseI64_comma (p : List Char) (h : ',' ∈ p) : parseI64 p = none := by
  cases p with
  | nil => cases h
  | cons c cs =>
    by_cases h1 : c = '+'
    · have hcs : ',' ∈ cs := by
        rcases List.mem_cons.mp h with h2 | h2
        · rw [h1] at h2
          exact absurd h2 (by decide)
        · exact h2
      simp [parseI64, h1, parseI64Core_comma _ _ hcs]
    · by_cases h2 : c = '-'
      · have hcs : ',' ∈ cs := by
          rcases List.mem_cons.mp h with h3 | h3
          · rw [h2] at h3
            exact absurd h3 (by decide)
          · exact h3
        simp [parseI64, h1, h2, parseI64Core_comma _ _ hcs]
      · simp [parseI64, h1, h2, parseI64Core_comma _ _ h]

theorem parseI64Core_eq (sign : Int) (ds : List Char) (v : Int)
    (h : parseI64Core sign ds = some v) : v = sign * (digitsToNat ds : Int) := by
  unfold parseI64Core at h
  split at h
  · exact absurd h (by simp)
  · split at h
    · split at h
      · exact (Option.some.inj h).symm
      · exact absurd h (by simp)
    · exact absurd h (by simp)

theorem parseI64_nonneg (p : List Char) (v : Int) (hd : '-' ∉ p)
    (h : parseI64 p = some v) : 0 ≤ v := by
  cases p with
  | nil => exact absurd h (by simp [parseI64])
  | cons c cs =>
    have hc : c ≠ '-' := fun hh => hd (hh ▸ List.mem_cons_self c cs)
    by_cases h1 : c = '+'
    · rw [parseI64, if_pos h1] at h
      rw [parseI64Core_eq 1 cs v h, one_mul]
      exact Int.natCast_nonneg _
    · rw [parseI64, if_neg h1, if_neg hc] at h
      rw [parseI64Core_eq 1 (c :: cs) v h, one_mul]
      exact Int.natCast_nonneg _

theorem parseI64Core_one_digits (ds : List Char) (h1 : ds ≠ [])
    (h2 : ds.all Char.isDigit = true) (h3 : (digitsToNat ds : Int) ≤ i64Max) :
    parseI64Core 1 ds = some (digitsToNat ds) := by
  have he : ds.isEmpty = false := by
    cases ds
    · exact absurd rfl h1
    · rfl
  have hb1 : i64Min ≤ (digitsToNat ds : Int) :=
    le_trans (by decide) (Int.natCast_nonneg _)
  rw [parseI64Core]
  simp [he, h2, hb1, h3]

theorem parseI64_digits (ds : List Char) (h1 : ds ≠ [])
    (h2 : ds.all Char.isDigit = true) (h3 : (digitsToNat ds : Int) ≤ i64Max) :
    parseI64 ds = some (digitsToNat ds) := by
  cases ds with
  | nil => exact absurd rfl h1
  | cons c cs =>
    have hcd : c.isDigit = true := List.all_eq_true.mp h2 c (List.mem_cons_self c cs)
    obtain ⟨hp, hm, _, _⟩ := isDigit_ne_chars c hcd
    rw [parseI64, if_neg hp, if_neg hm]
    exact parseI64Core_one_digits _ h1 h2 h3

theorem mem_of_getElemQ {α : Type} (l : List α) (i : Nat) (a : α)
    (h : l[i]? = some a) : a ∈ l := by
  induction l generalizing i with
  | nil => simp at h
  | cons x xs ih =>
    cases i with
    | zero =>
      simp at h
      simp [h]
    | succ j =>
      simp at h
      exact List.mem_cons_of_mem _ (ih j h)

/-! ### Behaviour of `fromStr` on structured inputs -/

/-- Any parsed range has nonnegative bounds: `split('-')` pieces contain no
`'-'`, so `i64` parsing can never see a minus sign. -/
theorem fromStrParts_ok_nonneg (xs : List Char) (r : Range)
    (h : fromStrParts (splitCh '-' xs) = .ok r) : 0 ≤ r.start ∧ 0 ≤ r.end_ := by
  rcases h0 : (splitCh '-' xs)[0]? with _ | p0
  · simp only [fromStrParts, h0] at h
    exact absurd h (by simp)
  · rcases hp0 : parseI64 p0 with _ | v0
    · simp only [fromStrParts, h0, hp0] at h
      exact absurd h (by simp)
    · rcases h1 : (splitCh '-' xs)[1]? with _ | p1
      · simp only [fromStrParts, h0, hp0, h1] at h
        exact absurd h (by simp)
      · rcases hp1 : parseI64 p1 with _ | v1
        · simp only [fromStrParts, h0, hp0, h1, hp1] at h
          exact absurd h (by simp)
        · simp only [fromStrParts, h0, hp0, h1, hp1] at h
          cases h
          constructor
          · exact parseI64_nonneg p0 v0
              (not_mem_of_mem_splitCh '-' xs p0 (mem_of_getElemQ _ 0 p0 h0)) hp0
          · exact parseI64_nonneg p1 v1
              (not_mem_of_mem_splitCh '-' xs p1 (mem_of_getElemQ _ 1 p1 h1)) hp1

/-- A payload starting with `'-'` always fails: the first `split('-')` piece is
empty and `"".parse::<i64>()` is an error. -/
theorem fromStr_dash_head (m : List Char) : fromStr (bytesEq ++ '-' :: m) = .err := by
  rw [fromStr, trimBytes_append _ (bytesEq_not_prefixOf_cons '-' m (by decide))]
  rcases h : splitCh '-' m with _ | ⟨p, ps⟩
  · exact absurd h (splitCh_ne_nil '-' m)
  · simp [splitCh, h, fromStrParts, parseI64]

/-- A payload `ds-` (open range form) always fails: the second piece is empty. -/
theorem fromStr_open_form (ds : List Char) (h1 : ds ≠ [])
    (h2 : ds.all Char.isDigit = true) : fromStr (bytesEq ++ (ds ++ ['-'])) = .err := by
  obtain ⟨c, ds', rfl⟩ : ∃ c ds', ds = c :: ds' := by
    cases ds
    · exact absurd rfl h1
    · exact ⟨_, _, rfl⟩
  have hcd : c.isDigit = true := List.all_eq_true.mp h2 c (List.mem_cons_self _ _)
  obtain ⟨_, _, hcb, _⟩ := isDigit_ne_chars c hcd
  rw [fromStr, show (c :: ds') ++ ['-'] = c :: (ds' ++ ['-']) from rfl,
    trimBytes_append _ (bytesEq_not_prefixOf_cons c _ hcb),
    show c :: (ds' ++ ['-']) = (c :: ds') ++ '-' :: [] from rfl,
    splitCh_append '-' _ _ (dash_not_mem_of_all_digit _ h2)]
  have hnil : parseI64 [] = none := rfl
  rcases hp : parseI64 (c :: ds') with _ | v <;>
    simp [fromStrParts, splitCh, hp, hnil]

/-- A payload `a-b,rest` with digit runs `a` (nonempty) and `b` (possibly
empty) always fails: the second `split('-')` piece contains the comma. -/
theorem fromStr_digits_comma (a b t : List Char) (ha : a ≠ [])
    (hda : a.all Char.isDigit = true) (hdb : b.all Char.isDigit = true) :
    fromStr (bytesEq ++ (a ++ '-' :: (b ++ ',' :: t))) = .err := by
  obtain ⟨c, a', rfl⟩ : ∃ c a', a = c :: a' := by
    cases a
    · exact absurd rfl ha
    · exact ⟨_, _, rfl⟩
  have hcd : c.isDigit = true := List.all_eq_true.mp hda c (List.mem_cons_self _ _)
  obtain ⟨_, _, hcb, _⟩ := isDigit_ne_chars c hcd
  rw [fromStr,
    show (c :: a') ++ '-' :: (b ++ ',' :: t) = c :: (a' ++ '-' :: (b ++ ',' :: t)) from rfl,
    trimBytes_append _ (bytesEq_not_prefixOf_cons c _ hcb),
    show c :: (a' ++ '-' :: (b ++ ',' :: t)) = (c :: a') ++ '-' :: (b ++ ',' :: t) from rfl,
    splitCh_append '-' _ _ (dash_not_mem_of_all_digit _ hda)]
  obtain ⟨ps, hps⟩ := splitCh_head '-' (b ++ ',' :: t)
  have htw : (b ++ ',' :: t).takeWhile (fun x => x != '-') =
      b ++ ',' :: (t.takeWhile fun x => x != '-') := by
    rw [takeWhile_append_all _ b (',' :: t) ?hall]
    · simp [List.takeWhile_cons]
    · intro x hx
      exact bne_iff_ne.mpr ((isDigit_ne_chars x (List.all_eq_true.mp hdb x hx)).2.1)
  rw [hps, htw]
  have hcomma : ',' ∈ b ++ ',' :: (t.takeWhile fun x => x != '-') := by simp
  rcases hp : parseI64 (c :: a') with _ | v <;>
    simp [fromStrParts, hp, parseI64_comma _ hcomma]

/-! ### Claims -/

/-- C1, counterexample. The header `bytes=0-99` is valid for the hard-coded
total 1646002176, and `read_umd` answers it with status 206 — but with an
empty body instead of the 100 requested bytes. -/
theorem c1_counterexample :
    fromStr "bytes=0-99".toList = .ok ⟨0, 99⟩ ∧
    (0 : Int) ≤ 99 ∧ (99 : Int) < (TOTAL : Int) ∧
    (readUmd "game.iso" ⟨0, 99⟩).status = 206 ∧
    ((readUmd "game.iso" ⟨0, 99⟩).body.length : Int) ≠ 99 - 0 + 1 :=
  ⟨by decide, by decide, by decide, rfl, by decide⟩

/-- C1, amended. For every name and every parsed range, `read_umd` responds
with status 206, `Content-Range: bytes {start}-{end}/1646002176` and the other
two fixed headers, and an **empty** body: no file bytes are served. -/
theorem c1_theorem (umdName : String) (range : Range) :
    (readUmd umdName range).status = 206 ∧
    (readUmd umdName range).headers =
      [("Accept-Ranges", "bytes"), ("Content-Type", "application/octet-stream"),
        ("Content-Range", contentRangeValue range)] ∧
    (readUmd umdName range).body = [] :=
  ⟨rfl, rfl, rfl⟩

/-- C2, counterexample. A range starting at 2000000000 ≥ 1646002176 (the
hard-coded total) parses successfully and `read_umd` answers 206, not 416:
there is no `Unsatisfiable` error in the code. -/
theorem c2_counterexample :
    fromStr "bytes=2000000000-2000000001".toList = .ok ⟨2000000000, 2000000001⟩ ∧
    (TOTAL : Int) ≤ 2000000000 ∧
    (readUmd "game.iso" ⟨2000000000, 2000000001⟩).status = 206 ∧
    (readUmd "game.iso" ⟨2000000000, 2000000001⟩).status ≠ 416 :=
  ⟨by decide, by decide, rfl, by decide⟩

/-- C2, amended. Parsing never compares the range against the file size: for
every range whose start is at or past the hard-coded total, the read handler
still responds 206, never 416. -/
theorem c2_theorem (umdName : String) (range : Range)
    (h : (TOTAL : Int) ≤ range.start) :
    (readUmd umdName range).status = 206 ∧ (readUmd umdName range).status ≠ 416 :=
  ⟨rfl, by simp [readUmd]⟩

/-- C2, witness for the amended theorem. -/
theorem c2_witness :
    (readUmd "game.iso" ⟨2000000000, 2000000001⟩).status = 206 ∧
    (readUmd "game.iso" ⟨2000000000, 2000000001⟩).status ≠ 416 :=
  c2_theorem "game.iso" ⟨2000000000, 2000000001⟩ (by decide)

/-- C3, counterexample. The out-of-order header `bytes=20-10` parses to
`Ok(Range { start: 20, end: 10 })` with `end < start`: there is no ordering
check in `Range::from_str`. -/
theorem c3_counterexample :
    fromStr "bytes=20-10".toList = .ok ⟨20, 10⟩ ∧ (10 : Int) < 20 := by decide

/-- C3, amended. Non-numeric and negative values do fail to parse — every
successfully parsed range has nonnegative bounds, because `split('-')` pieces
cannot contain a minus sign — but out-of-order bounds are not rejected. -/
theorem c3_theorem (s : List Char) (r : Range) (h : fromStr s = .ok r) :
    0 ≤ r.start ∧ 0 ≤ r.end_ :=
  fromStrParts_ok_nonneg (trimBytes s) r h

/-- C3, witness for the amended theorem. -/
theorem c3_witness : 0 ≤ (Range.mk 20 10).start ∧ 0 ≤ (Range.mk 20 10).end_ :=
  c3_theorem "bytes=20-10".toList ⟨20, 10⟩ (by decide)

/-- C4, counterexample. For the header `bytes=0-2000000000` (start 0 < total,
end 2000000000 ≥ total 1646002176), parsing succeeds with the end passed
through unchanged — not clamped to total − 1 = 1646002175. -/
theorem c4_counterexample :
    fromStr "bytes=0-2000000000".toList = .ok ⟨0, 2000000000⟩ ∧
    (TOTAL : Int) ≤ 2000000000 ∧ (2000000000 : Int) ≠ (TOTAL : Int) - 1 := by
  decide

/-- C4, amended. `Range::from_str` never consults a total size: every header
`bytes=a-b` with nonempty digit runs `a`, `b` whose values fit in `i64` parses
to exactly `Range { start: a, end: b }`, with no clamping of any kind, so a
served `Content-Range` can extend past the file. -/
theorem c4_theorem (a b : List Char) (ha : a ≠ []) (hb : b ≠ [])
    (hda : a.all Char.isDigit = true) (hdb : b.all Char.isDigit = true)
    (hia : (digitsToNat a : Int) ≤ i64Max) (hib : (digitsToNat b : Int) ≤ i64Max) :
    fromStr (bytesEq ++ (a ++ '-' :: b)) = .ok ⟨digitsToNat a, digitsToNat b⟩ := by
  obtain ⟨c, a', rfl⟩ : ∃ c a', a = c :: a' := by
    cases a
    · exact absurd rfl ha
    · exact ⟨_, _, rfl⟩
  have hcd : c.isDigit = true := List.all_eq_true.mp hda c (List.mem_cons_self _ _)
  obtain ⟨_, _, hcb, _⟩ := isDigit_ne_chars c hcd
  rw [fromStr,
    show (c :: a') ++ '-' :: b = c :: (a' ++ '-' :: b) from rfl,
    trimBytes_append _ (bytesEq_not_prefixOf_cons c _ hcb),
    show c :: (a' ++ '-' :: b) = (c :: a') ++ '-' :: b from rfl,
    splitCh_append '-' _ _ (dash_not_mem_of_all_digit _ hda),
    splitCh_no_sep '-' _ (dash_not_mem_of_all_digit _ hdb)]
  simp [fromStrParts, parseI64_digits _ ha hda hia, parseI64_digits _ hb hdb hib]

/-- C4, witness for the amended theorem. -/
theorem c4_witness :
    fromStr "bytes=0-2000000001".toList = .ok ⟨0, 2000000001⟩ :=
  c4_theorem ['0'] ['2', '0', '0', '0', '0', '0', '0', '0', '0', '1']
    (by decide) (by decide) (by decide) (by decide) (by decide) (by decide)

/-- C5, counterexample. The suffix form `bytes=-5` and the open form
`bytes=5-` are both rejected by `Range::from_str` (empty piece fails `i64`
parsing), and for N ≥ total, `bytes=-N` is also an error, not the whole-file
range. -/
theorem c5_counterexample :
    fromStr "bytes=-5".toList = .err ∧ fromStr "bytes=5-".toList = .err ∧
    fromStr "bytes=-2000000000".toList = .err := by
  decide

/-- C5, amended. For every nonempty digit run N, both the suffix form
`bytes=-N` and the open form `bytes=N-` fail to parse: the omitted bound
yields an empty `split('-')` piece, which `i64` parsing rejects. -/
theorem c5_theorem (ds : List Char) (h1 : ds ≠ []) (h2 : ds.all Char.isDigit = true) :
    fromStr (bytesEq ++ '-' :: ds) = .err ∧ fromStr (bytesEq ++ (ds ++ ['-'])) = .err :=
  ⟨fromStr_dash_head ds, fromStr_open_form ds h1 h2⟩

/-- C5, witness for the amended theorem. -/
theorem c5_witness :
    fromStr "bytes=-7".toList = .err ∧ fromStr "bytes=7-".toList = .err :=
  c5_theorem ['7'] (by decide) (by decide)

/-- C6, confirmed. Every well-formed multi-range header value — the comma
join of at least two single-range specs — fails to parse: the comma always
lands inside one of the first two `split('-')` pieces, and `i64` parsing
rejects it. (The code reports this as its only error kind, `ParseIntError`,
the code's counterpart of `Malformed`.) -/
theorem c6_theorem (specs : List (List Char)) (hlen : 2 ≤ specs.length)
    (hall : ∀ p ∈ specs, IsRangeSpec p) :
    fromStr (bytesEq ++ joinComma specs) = .err := by
  rcases specs with _ | ⟨p1, _ | ⟨p2, rest⟩⟩
  · simp at hlen
  · simp at hlen
  · rw [show joinComma (p1 :: p2 :: rest) = p1 ++ ',' :: joinComma (p2 :: rest) from rfl]
    rcases hall p1 (List.mem_cons_self _ _) with
      ⟨a, b, ha, hb, hda, hdb, rfl⟩ | ⟨a, ha, hda, rfl⟩ | ⟨b, hb, hdb, rfl⟩
    · rw [show (a ++ '-' :: b) ++ ',' :: joinComma (p2 :: rest) =
          a ++ '-' :: (b ++ ',' :: joinComma (p2 :: rest)) by simp]
      exact fromStr_digits_comma a b _ ha hda hdb
    · rw [show (a ++ ['-']) ++ ',' :: joinComma (p2 :: rest) =
          a ++ '-' :: ([] ++ ',' :: joinComma (p2 :: rest)) by simp]
      exact fromStr_digits_comma a [] _ ha hda rfl
    · rw [show ('-' :: b) ++ ',' :: joinComma (p2 :: rest) =
          '-' :: (b ++ ',' :: joinComma (p2 :: rest)) by simp]
      exact fromStr_dash_head _

/-- C6, witness: the spec's own example `bytes=0-5,10-20` fails to parse. -/
theorem c6_witness : fromStr "bytes=0-5,10-20".toList = .err :=
  c6_theorem [['0', '-', '5'], ['1', '0', '-', '2', '0']] (by decide)
    (by
      intro p hp
      rcases List.mem_cons.mp hp with rfl | hp'
      · exact Or.inl ⟨['0'], ['5'], by decide, by decide, by decide, by decide, rfl⟩
      · rcases List.mem_cons.mp hp' with rfl | hp''
        · exact Or.inl ⟨['1', '0'], ['2', '0'], by decide, by decide, by decide, by decide, rfl⟩
        · cases hp'')

/-- C7, counterexample. `missing.iso` appears in no name list of the program,
yet `info_umd` answers 200 with the hard-coded length — never 404: the handler
performs no catalog lookup at all. -/
theorem c7_counterexample :
    "missing.iso" ∉ isos ∧ "/missing.iso" ∉ isos ∧
    (infoUmd "missing.iso").status = 200 ∧ (infoUmd "missing.iso").status ≠ 404 :=
  ⟨by decide, by decide, rfl, by decide⟩

/-- C7, amended. `HEAD /{name}` does no lookup: for every name it responds
200 with `Content-Length: 1646002176`, `Accept-Ranges: bytes` and
`Content-Type: application/octet-stream`; no 404 path exists. -/
theorem c7_theorem (umdName : String) :
    infoUmd umdName =
      ⟨200, [("Accept-Ranges", "bytes"), ("Content-Type", "application/octet-stream"),
        ("Content-Length", "1646002176")], []⟩ ∧
    (infoUmd umdName).status ≠ 404 :=
  ⟨rfl, by simp [infoUmd]⟩

/-- C8, confirmed. The list served by `GET /` has no duplicate names, is
sorted by name, presents every name with a leading `/` in its stored
percent-encoded form, contains no embedded newline (so the join is one name
per line), and the response is the fixed string `isos.join("\n")` — identical
on every call. -/
theorem c8_theorem :
    isos.Nodup ∧ List.Pairwise (fun a b : String => a.toList < b.toList) isos ∧
    (isos.all fun s => s.toList.take 1 == ['/']) = true ∧
    (isos.all fun s => !s.toList.contains '\n') = true ∧
    listUmds = String.intercalate "\n" isos :=
  ⟨by decide, by decide, by decide, by decide, rfl⟩

/-- C9, counterexample. `FRAGMENT` only adds the space to the controls:
`'#'`, although unusable raw in a URL path segment, is not percent-encoded,
so the public name of `a#b.iso` contains a raw `'#'` (while a non-ASCII name
such as `é.iso` does get its UTF-8 bytes encoded, as the crate always encodes
non-ASCII bytes). -/
theorem c9_counterexample :
    publicName "a#b.iso".toList = "/a#b.iso".toList ∧
    '#' ∈ "/a#b.iso".toList ∧ inFragment '#' = false ∧
    publicName "é.iso".toList = "/%C3%A9.iso".toList := by
  decide

/-- Percent-encoding under `FRAGMENT` is the identity on ASCII strings free of
controls and spaces (non-ASCII characters are always encoded byte-wise). -/
theorem utf8PercentEncode_id : ∀ (rel : List Char),
    (∀ c ∈ rel, c.toNat < 128 ∧ inFragment c = false) → utf8PercentEncode rel = rel := by
  intro rel
  induction rel with
  | nil => intro _; rfl
  | cons c cs ih =>
    intro h
    obtain ⟨hasc, hfr⟩ := h c (List.mem_cons_self _ _)
    have ih' := ih fun x hx => h x (List.mem_cons_of_mem _ hx)
    simp [utf8PercentEncode, percentEncodeChar, hasc, hfr] at ih' ⊢
    exact ih'

/-- C9, amended. A scanned file's public name is `'/'` followed by its
root-relative path percent-encoded with `FRAGMENT = CONTROLS.add(b' ')`: only
ASCII control characters, the space, and the bytes of non-ASCII characters
are percent-encoded. Every other ASCII character — including URL-reserved
ones like `'#'`, `'?'`, `'%'` — passes through unchanged, so for an ASCII
name free of controls and spaces the name is the path itself. -/
theorem c9_theorem (rel : List Char)
    (h : ∀ c ∈ rel, c.toNat < 128 ∧ inFragment c = false) :
    publicName rel = '/' :: rel := by
  rw [publicName, utf8PercentEncode_id rel h]

/-- C9, witness for the amended theorem: `#` and `%` are left raw. -/
theorem c9_witness : publicName "a#%b.iso".toList = '/' :: "a#%b.iso".toList :=
  c9_theorem "a#%b.iso".toList (by decide)

/-- C10. `Range::from_str` is not total: on `"bytes=5"` the split yields a
single piece, so the unchecked `range[1]` access panics (index out of
bounds); only inputs failing already at `range[0].parse()` — such as the
empty string — return `Err`. -/
theorem c10_theorem :
    fromStr "bytes=5".toList = .panicked ∧ fromStr "".toList = .err := by
  decide

end Rumd
